import Mathlib

/-! # TransLT — verification of the query interpreter and translation client

A shallow embedding, over `List Char`, of the core of the TransLT
translation relay (`src/inline.rs`, `src/translator.rs`, `src/types.rs`),
together with proofs of the specification's claims about it.

Conventions:
* Rust `&str` values become `List Char` (Unicode scalar values, exactly
  the units of Rust's `char`).
* Rust `str::trim`, the regex class `\s` and `char::is_whitespace` all
  test the Unicode `White_Space` property; `isWs` lists that set.
* The two precompiled regexes of `inline.rs` are embedded as explicit
  deterministic matchers (`directionMatch`, `containsCJK`,
  `containsLatin`); the patterns have no backtracking ambiguity, so the
  greedy matchers agree with the regex crate's leftmost-first semantics.
* The statistical detector (the external `whatlang` crate) and the JSON
  parser for the provider payload (the external `serde_json` crate) are
  taken as parameters: the repository's code is modelled exactly, the
  external crates abstractly.
-/

namespace TransLT

/-! ## Characters: whitespace, CJK ranges, Latin letters -/

/-- The Unicode `White_Space` set — what Rust's `char::is_whitespace`,
`str::trim` and the regex class `\s` recognise. -/
def isWs (c : Char) : Bool :=
  decide ((9 ≤ c.toNat ∧ c.toNat ≤ 13) ∨ c.toNat = 32 ∨ c.toNat = 133 ∨
    c.toNat = 160 ∨ c.toNat = 0x1680 ∨ (0x2000 ≤ c.toNat ∧ c.toNat ≤ 0x200A) ∨
    c.toNat = 0x2028 ∨ c.toNat = 0x2029 ∨ c.toNat = 0x202F ∨ c.toNat = 0x205F ∨
    c.toNat = 0x3000)

/-- The character class of the CJK regex in `auto_detect_direction`:
`[　-〿぀-ヿ㐀-䶿一-鿿豈-﫿]`. -/
def isCJK (c : Char) : Bool :=
  decide ((0x3000 ≤ c.toNat ∧ c.toNat ≤ 0x303F) ∨ (0x3040 ≤ c.toNat ∧ c.toNat ≤ 0x30FF) ∨
    (0x3400 ≤ c.toNat ∧ c.toNat ≤ 0x4DBF) ∨ (0x4E00 ≤ c.toNat ∧ c.toNat ≤ 0x9FFF) ∨
    (0xF900 ≤ c.toNat ∧ c.toNat ≤ 0xFAFF))

/-- The character class `[a-zA-Z]` of the Latin-fallback regex. -/
def isLatinLetter (c : Char) : Bool :=
  decide ((97 ≤ c.toNat ∧ c.toNat ≤ 122) ∨ (65 ≤ c.toNat ∧ c.toNat ≤ 90))

/-- Rust `Regex::is_match` for a single-character class: some character of the
text is in the class. -/
def containsCJK (l : List Char) : Bool := l.any isCJK

/-- Rust `is_match` of the `[a-zA-Z]` fallback regex. -/
def containsLatin (l : List Char) : Bool := l.any isLatinLetter

/-- Rust `str::trim`: drop `White_Space` characters from both ends. -/
def rustTrim (l : List Char) : List Char :=
  ((l.dropWhile isWs).reverse.dropWhile isWs).reverse

/-- The regex fragment `\s*`: greedily skip whitespace. -/
def skipWs (l : List Char) : List Char := l.dropWhile isWs

/-! ## Segments: `normalize_segments` and friends (`inline.rs`) -/

/-- The recursion behind `splitPipe`: the first piece and the remaining
pieces, kept apart so that the result is a cons by construction. -/
def splitPipeCore : List Char → (List Char × List (List Char))
  | [] => ([], [])
  | c :: rest =>
    let (s, ss) := splitPipeCore rest
    if c = '|' then ([], s :: ss) else (c :: s, ss)

/-- Rust `str::split('|')`: split at every `'|'`, keeping empty pieces;
the result is never the empty list (splitting `""` gives `[""]`). -/
def splitPipe (l : List Char) : List (List Char) :=
  (splitPipeCore l).1 :: (splitPipeCore l).2

/-- Rust `Vec::join(sep)` for a one-character separator. -/
def joinSep (sep : Char) : List (List Char) → List Char
  | [] => []
  | [s] => s
  | s :: t :: rest => s ++ sep :: joinSep sep (t :: rest)

/-- Rust `inline.rs::normalize_segments`: split on `'|'`, trim each segment,
drop empty segments, rejoin with `'|'`. -/
def normalize_segments (raw : List Char) : List Char :=
  joinSep '|' (((splitPipe raw).map rustTrim).filter (fun s => !s.isEmpty))

/-- Rust `inline.rs::format_segments_for_display`: like `normalize_segments`
but rejoined with newlines. -/
def format_segments_for_display (value : List Char) : List Char :=
  joinSep '\n' (((splitPipe value).map rustTrim).filter (fun s => !s.isEmpty))

/-! ## Data model (`types.rs`) -/

/-- Rust `types.rs::LanguageCode`: closed two-variant enumeration. -/
inductive LanguageCode where
  | En : LanguageCode
  | Zh : LanguageCode
deriving DecidableEq, Repr

/-- Rust `Display for LanguageCode` (lowercase), as a character list. -/
def LanguageCode.render : LanguageCode → List Char
  | .En => ['e', 'n']
  | .Zh => ['z', 'h']

/-- Rust `types.rs::ParsedInlineQuery`. -/
structure ParsedInlineQuery where
  text : List Char
  source_lang : LanguageCode
  target_lang : LanguageCode
deriving DecidableEq, Repr

/-- Rust `types.rs::TranslationRequest`. -/
structure TranslationRequest where
  text : List Char
  source_lang : LanguageCode
  target_lang : LanguageCode
deriving DecidableEq, Repr

/-- Rust `types.rs::TranslationResult`. -/
structure TranslationResult where
  primary_text : List Char
  alternate_texts : List (List Char)
  romanized_text : Option (List Char)
  provider_latency_ms : Nat
deriving DecidableEq, Repr

/-- Rust `types.rs::ProviderTranslationPayload` (the decoded provider JSON). -/
structure ProviderTranslationPayload where
  translation : List Char
  alternatives : Option (List (List Char))
  romanized : Option (List Char)
deriving DecidableEq, Repr

/-- The result of the external `whatlang` detector, as far as
`auto_detect_direction` inspects it: English, Mandarin, or anything
else. -/
inductive DetectedLang where
  | Eng : DetectedLang
  | Cmn : DetectedLang
  | OtherLang : DetectedLang
deriving DecidableEq, Repr

/-- The external statistical detector: any pure function of the text. -/
def Detector : Type := List Char → Option DetectedLang

/-! ## The direction regex `^(?i)(en|zh)\s*(?:>|->)\s*(en|zh)\s*:?`

Embedded as a deterministic matcher.  Every alternation in the pattern
is decided by the first character it sees (`e`/`z` for the codes, `>`
a.k.a. `-` for the arrow) and `\s*` consumes a maximal run whose
follower is never whitespace, so the greedy matcher below computes the
unique (leftmost-first) regex match anchored at the start.  Case
insensitivity for `en`/`zh` is ASCII (no other scalar value
case-folds to `e`, `n`, `z` or `h`). -/

/-- Match `(?i)(en|zh)` at the head, returning the code and the rest. -/
def matchCode : List Char → Option (LanguageCode × List Char)
  | c1 :: c2 :: rest =>
    if (c1 = 'e' ∨ c1 = 'E') ∧ (c2 = 'n' ∨ c2 = 'N') then some (.En, rest)
    else if (c1 = 'z' ∨ c1 = 'Z') ∧ (c2 = 'h' ∨ c2 = 'H') then some (.Zh, rest)
    else none
  | _ => none

/-- Match `(?:>|->)` at the head. -/
def matchArrow : List Char → Option (List Char)
  | '>' :: rest => some rest
  | '-' :: '>' :: rest => some rest
  | _ => none

/-- The optional trailing `:?`. -/
def consumeColon : List Char → List Char
  | ':' :: rest => rest
  | rest => rest

/-- The anchored match of the direction pattern: on success, the two
captured codes and the text after the end of capture 0. -/
def directionMatch (l : List Char) : Option (LanguageCode × LanguageCode × List Char) :=
  match matchCode l with
  | none => none
  | some (c1, r1) =>
    match matchArrow (skipWs r1) with
    | none => none
    | some r2 =>
      match matchCode (skipWs r2) with
      | none => none
      | some (c2, r3) => some (c1, c2, consumeColon (skipWs r3))

/-! ## `inline.rs::auto_detect_direction` and `parse_inline_query` -/

/-- Rust `inline.rs::auto_detect_direction`, with the `whatlang` call
abstracted as `detect`. -/
def auto_detect_direction (detect : Detector) (text : List Char)
    (default_source default_target : LanguageCode) : LanguageCode × LanguageCode :=
  if containsCJK text then (.Zh, .En)
  else
    match detect text with
    | some .Eng => (.En, .Zh)
    | some .Cmn => (.Zh, .En)
    | _ =>
      if containsLatin text then (.En, .Zh)
      else (default_source, default_target)

/-- Rust `MAX_TEXT_LENGTH` of `inline.rs`. -/
def MAX_TEXT_LENGTH : Nat := 2048

/-- The `(source_lang, target_lang, text_portion)` triple bound inside
`parse_inline_query` (the `if let Some(captures) … else` expression),
`none` exactly when the trimmed input is empty. -/
def candidateTriple (detect : Detector) (raw_query : List Char)
    (default_source default_target : LanguageCode) :
    Option (LanguageCode × LanguageCode × List Char) :=
  let trimmed := rustTrim raw_query
  if trimmed.isEmpty then none
  else
    match directionMatch trimmed with
    | some (src, tgt, rest) => some (src, tgt, rustTrim rest)
    | none =>
      let (src, tgt) := auto_detect_direction detect trimmed default_source default_target
      some (src, tgt, trimmed)

/-- Rust `inline.rs::parse_inline_query`. -/
def parse_inline_query (detect : Detector) (raw_query : List Char)
    (default_source default_target : LanguageCode) : Option ParsedInlineQuery :=
  match candidateTriple detect raw_query default_source default_target with
  | none => none
  | some (src, tgt, text_portion) =>
    let normalized_text := normalize_segments (text_portion.take MAX_TEXT_LENGTH)
    if normalized_text.isEmpty then none
    else some ⟨normalized_text, src, tgt⟩

/-! ## Rendering helpers (`inline.rs`) -/

/-- Rust `inline.rs::truncate`: replace every whitespace character by a
space, trim, and when the result is longer than `maxLen` scalar values
keep `maxLen - 1` of them and append an ellipsis. -/
def truncate (s : List Char) (maxLen : Nat) : List Char :=
  let single_line := s.map (fun c => if isWs c then ' ' else c)
  let trimmed := rustTrim single_line
  if maxLen < trimmed.length then trimmed.take (maxLen - 1) ++ ['…']
  else trimmed

/-- Rust `to_string().to_uppercase()` of a language code. -/
def langUpper : LanguageCode → List Char
  | .En => ['E', 'N']
  | .Zh => ['Z', 'H']

/-- The header `"🌐 {SRC} → {TGT}"` of `build_translation_articles`. -/
def articleHeader (parsed : ParsedInlineQuery) : List Char :=
  "🌐 ".toList ++ langUpper parsed.source_lang ++ " → ".toList ++ langUpper parsed.target_lang

/-- One `InlineQueryResultArticle`, modelled by what the code puts into
it: the title, the body placed below the header in the message content,
and the attached description.  The random UUID is dropped. -/
structure ArticleModel where
  title : List Char
  body : List Char
  description : List Char
deriving DecidableEq, Repr

/-- Rust `inline.rs::build_translation_articles`: the primary entry, a
romanized entry when `romanized_text` is present, and an alternatives
entry when `alternate_texts` is non-empty. -/
def build_translation_articles (parsed : ParsedInlineQuery)
    (translation : TranslationResult) : List ArticleModel :=
  let header := articleHeader parsed
  let primary_display := format_segments_for_display translation.primary_text
  let primary : ArticleModel :=
    ⟨header ++ " · Primary".toList, primary_display, truncate primary_display 80⟩
  let romanizedArts : List ArticleModel :=
    match translation.romanized_text with
    | some romanized =>
      let romanized_display := format_segments_for_display romanized
      [⟨header ++ " · Romanized".toList, romanized_display, truncate romanized_display 80⟩]
    | none => []
  let altArts : List ArticleModel :=
    if translation.alternate_texts.isEmpty then []
    else
      let alt_samples := (translation.alternate_texts.take 3).map format_segments_for_display
      let bullets := joinSep '\n' (alt_samples.map (fun line => "• ".toList ++ line))
      [⟨header ++ " · Alternatives".toList, bullets, truncate (alt_samples.headD []) 80⟩]
  primary :: (romanizedArts ++ altArts)

/-! ## Translation client (`translator.rs`) -/

/-- The endpoint resolution of `Translator::new`, at the level of the
URL's path component: keep the path when it already ends in
`/chat/completions`; otherwise resolve the relative reference
`chat/completions` against it (`Url::join`, RFC 3986 §5.3: the
reference replaces everything after the base path's last `/`). -/
def endpointPath (basePath : List Char) : List Char :=
  if "/chat/completions".toList.isSuffixOf basePath then basePath
  else (basePath.reverse.dropWhile (fun c => c ≠ '/')).reverse ++ "chat/completions".toList

/-- What the claim says `Translator::new` does to the path: appended,
not resolved.  Modelled from the spec's words, for comparison with
`endpointPath`. -/
def claimedEndpointPath (basePath : List Char) : List Char :=
  if "chat/completions".toList.isSuffixOf basePath then basePath
  else basePath ++ "/chat/completions".toList

/-- The external JSON parse of the candidate string as a
`ProviderTranslationPayload` (`serde_json::from_str`), abstracted. -/
def PayloadJsonParse : Type := List Char → Option ProviderTranslationPayload

/-- The candidate-extraction slice of `parse_json_content`:
`content[first&'{' ..= last '}']` when both braces occur, the whole
content otherwise.  Rust's inclusive slice panics when the slice start
exceeds the slice end by more than one; `none` models that panic. -/
def extractCandidate (content : List Char) : Option (List Char) :=
  match content.findIdx? (fun c => c = '{') with
  | none => some content
  | some start =>
    match content.reverse.findIdx? (fun c => c = '}') with
    | none => some content
    | some revEnd =>
      let endIdx := content.length - 1 - revEnd
      if start ≤ endIdx + 1 then some ((content.drop start).take (endIdx + 1 - start))
      else none

/-- Rust `translator.rs::Translator::parse_json_content`, with the
`serde_json` payload parse abstracted as `parse`.  `none` models the
slice panic inside the candidate extraction; every other path returns a
payload, falling back to the trimmed whole content. -/
def parse_json_content (parse : PayloadJsonParse) (content : List Char) :
    Option ProviderTranslationPayload :=
  match extractCandidate content with
  | none => none
  | some json_str =>
    match parse json_str with
    | some parsed => some parsed
    | none => some ⟨rustTrim content, none, none⟩

/-- The JSON envelope of the provider's HTTP response body
(`serde_json::Value`), as far as `translate` inspects it. -/
inductive Json where
  | null : Json
  | bool (b : Bool) : Json
  | num (n : Int) : Json
  | str (s : List Char) : Json
  | arr (elems : List Json) : Json
  | obj (fields : List (List Char × Json)) : Json

/-- Rust `Value::index` by string key: member of an object, `Null` elsewhere. -/
def Json.get (j : Json) (key : List Char) : Json :=
  match j with
  | .obj fields => ((fields.find? (fun f => f.1 = key)).map Prod.snd).getD .null
  | _ => .null

/-- Rust `Value::index` by array position: element when in bounds, `Null`
elsewhere. -/
def Json.at (j : Json) (i : Nat) : Json :=
  match j with
  | .arr elems => elems.getD i .null
  | _ => .null

/-- Rust `Value::as_str`. -/
def Json.asStr : Json → Option (List Char)
  | .str s => some s
  | _ => none

/-- The HTTP exchange of one `translate` call, abstracted to what the
code inspects of it: the status code, the best-effort body text, and
the body decoded as JSON (`none` when `response.json()` fails). -/
structure HttpExchange where
  status : Nat
  bodyText : List Char
  bodyJson : Option Json

/-- The failure taxonomy of `translate` (the `anyhow` error paths). -/
inductive TranslationError where
  | providerFailed (status : Nat) (body : List Char) : TranslationError
  | envelopeDecode : TranslationError
  | missingContent : TranslationError
deriving DecidableEq, Repr

/-- Rust `StatusCode::is_success`: 2xx. -/
def statusIsSuccess (status : Nat) : Bool := decide (200 ≤ status ∧ status < 300)

/-- Rust `translator.rs::Translator::translate` from the HTTP response on:
status check, envelope decode, `choices[0].message.content` extraction,
lenient content decode, and result construction.  The outer `none`
models the panic inside `parse_json_content`; `request` feeds only the
outbound prompt and is irrelevant to the decoded result. -/
def translate (parse : PayloadJsonParse) (_request : TranslationRequest)
    (response : HttpExchange) (latency_ms : Nat) :
    Option (Except TranslationError TranslationResult) :=
  if ¬ statusIsSuccess response.status then
    some (.error (.providerFailed response.status response.bodyText))
  else
    match response.bodyJson with
    | none => some (.error .envelopeDecode)
    | some payload =>
      match ((((payload.get "choices".toList).at 0).get "message".toList).get
          "content".toList).asStr with
      | none => some (.error .missingContent)
      | some content =>
        match parse_json_content parse content with
        | none => none
        | some parsed =>
          some (.ok
            { primary_text := parsed.translation
              alternate_texts := []
              romanized_text := parsed.romanized.filter (fun s => !(rustTrim s).isEmpty)
              provider_latency_ms := latency_ms })

/-! ## Lemmas about trimming -/

theorem head?_dropWhile_not (p : Char → Bool) :
    ∀ (l : List Char) (c : Char), (l.dropWhile p).head? = some c → p c = false := by
  intro l
  induction l with
  | nil => intro c h; simp [List.dropWhile] at h
  | cons a t ih =>
    intro c h
    by_cases hp : p a
    · rw [List.dropWhile_cons_of_pos hp] at h
      exact ih c h
    · rw [List.dropWhile_cons_of_neg hp] at h
      simp at h
      subst h
      exact Bool.eq_false_iff.mpr hp

theorem dropWhile_eq_self_of_head (p : Char → Bool) (l : List Char)
    (h : ∀ c, l.head? = some c → p c = false) : l.dropWhile p = l := by
  cases l with
  | nil => rfl
  | cons a t =>
    have := h a rfl
    rw [List.dropWhile_cons_of_neg (by rw [this]; exact Bool.false_ne_true)]

theorem suffix_getLast? {s l : List Char} (h : s <:+ l) (hne : s ≠ []) :
    s.getLast? = l.getLast? := by
  obtain ⟨t, rfl⟩ := h
  exact (List.getLast?_append_of_ne_nil t hne).symm

theorem mem_rustTrim {c : Char} {l : List Char} (h : c ∈ rustTrim l) : c ∈ l := by
  unfold rustTrim at h
  rw [List.mem_reverse] at h
  have h1 := (List.dropWhile_suffix isWs).sublist.mem h
  rw [List.mem_reverse] at h1
  exact (List.dropWhile_suffix isWs).sublist.mem h1

theorem rustTrim_length_le (l : List Char) : (rustTrim l).length ≤ l.length := by
  unfold rustTrim
  rw [List.length_reverse]
  calc ((l.dropWhile isWs).reverse.dropWhile isWs).length
      ≤ (l.dropWhile isWs).reverse.length := (List.dropWhile_suffix isWs).sublist.length_le
    _ = (l.dropWhile isWs).length := List.length_reverse _
    _ ≤ l.length := (List.dropWhile_suffix isWs).sublist.length_le

theorem rustTrim_getLast?_not_ws {l : List Char} {c : Char}
    (h : (rustTrim l).getLast? = some c) : isWs c = false := by
  unfold rustTrim at h
  rw [List.getLast?_reverse] at h
  exact head?_dropWhile_not isWs _ c h

theorem rustTrim_head?_not_ws {l : List Char} {c : Char}
    (h : (rustTrim l).head? = some c) : isWs c = false := by
  unfold rustTrim at h
  rw [List.head?_reverse] at h
  set b := (l.dropWhile isWs).reverse.dropWhile isWs with hb
  have hbne : b ≠ [] := by
    intro hnil
    rw [hnil] at h
    simp at h
  have hsuf : b <:+ (l.dropWhile isWs).reverse := List.dropWhile_suffix isWs
  rw [suffix_getLast? hsuf hbne, List.getLast?_reverse] at h
  exact head?_dropWhile_not isWs _ c h

theorem rustTrim_eq_self {l : List Char}
    (h1 : ∀ c, l.head? = some c → isWs c = false)
    (h2 : ∀ c, l.getLast? = some c → isWs c = false) : rustTrim l = l := by
  unfold rustTrim
  rw [dropWhile_eq_self_of_head isWs l h1]
  rw [dropWhile_eq_self_of_head isWs l.reverse (by
    intro c hc
    rw [List.head?_reverse] at hc
    exact h2 c hc)]
  exact List.reverse_reverse l

theorem rustTrim_idem (l : List Char) : rustTrim (rustTrim l) = rustTrim l :=
  rustTrim_eq_self (fun _ h => rustTrim_head?_not_ws h) (fun _ h => rustTrim_getLast?_not_ws h)

theorem rustTrim_eq_nil {l : List Char} (h : ∀ c ∈ l, isWs c = true) : rustTrim l = [] := by
  unfold rustTrim
  rw [List.dropWhile_eq_nil_iff.mpr h]
  rfl

theorem rustTrim_no_pipe {l : List Char} (h : '|' ∉ l) : '|' ∉ rustTrim l :=
  fun hc => h (mem_rustTrim hc)

/-! ## Lemmas about splitting and joining segments -/

theorem splitPipeCore_cons (c : Char) (rest : List Char) :
    splitPipeCore (c :: rest) =
      if c = '|' then ([], (splitPipeCore rest).1 :: (splitPipeCore rest).2)
      else (c :: (splitPipeCore rest).1, (splitPipeCore rest).2) := rfl

theorem joinSep_cons (sep : Char) (s : List Char) (ss : List (List Char)) :
    joinSep sep (s :: ss) = s ++ (if ss.isEmpty then [] else sep :: joinSep sep ss) := by
  cases ss with
  | nil => simp [joinSep]
  | cons t ts => rfl

theorem joinSep_splitPipe (l : List Char) : joinSep '|' (splitPipe l) = l := by
  induction l with
  | nil => rfl
  | cons c rest ih =>
    unfold splitPipe at ih ⊢
    rw [splitPipeCore_cons]
    by_cases hc : c = '|'
    · rw [if_pos hc, hc]
      show joinSep '|' ([] :: _ :: _) = '|' :: rest
      rw [joinSep_cons]
      simpa using ih
    · rw [if_neg hc]
      show joinSep '|' ((c :: (splitPipeCore rest).1) :: (splitPipeCore rest).2) = c :: rest
      rw [joinSep_cons] at ih ⊢
      rw [List.cons_append, ih]

theorem mem_splitPipe {l : List Char} {s : List Char} {c : Char}
    (hs : s ∈ splitPipe l) (hc : c ∈ s) : c ∈ l ∧ ¬ c = '|' := by
  induction l generalizing s with
  | nil =>
    simp [splitPipe, splitPipeCore] at hs
    subst hs
    exact absurd hc (List.not_mem_nil c)
  | cons a rest ih =>
    unfold splitPipe at hs
    rw [splitPipeCore_cons] at hs
    by_cases ha : a = '|'
    · rw [if_pos ha] at hs
      simp only [List.mem_cons] at hs
      rcases hs with h1 | h1 | h1
      · subst h1; exact absurd hc (List.not_mem_nil c)
      · have := ih (by rw [h1]; exact List.mem_cons_self _ _) hc
        exact ⟨List.mem_cons_of_mem a this.1, this.2⟩
      · have := ih (List.mem_cons_of_mem _ h1) hc
        exact ⟨List.mem_cons_of_mem a this.1, this.2⟩
    · rw [if_neg ha] at hs
      simp only [List.mem_cons] at hs
      rcases hs with h1 | h1
      · subst h1
        rcases List.mem_cons.mp hc with h2 | h2
        · subst h2
          exact ⟨List.mem_cons_self c rest, ha⟩
        · have := ih (List.mem_cons_self _ _) h2
          exact ⟨List.mem_cons_of_mem a this.1, this.2⟩
      · have := ih (List.mem_cons_of_mem _ h1) hc
        exact ⟨List.mem_cons_of_mem a this.1, this.2⟩

theorem splitPipeCore_of_no_pipe {p : List Char} (h : '|' ∉ p) :
    splitPipeCore p = (p, []) := by
  induction p with
  | nil => rfl
  | cons c rest ih =>
    have hc : ¬ c = '|' := fun hc => h (hc ▸ List.mem_cons_self c rest)
    have hrest : '|' ∉ rest := fun hm => h (List.mem_cons_of_mem c hm)
    rw [splitPipeCore_cons, if_neg hc, ih hrest]

theorem splitPipeCore_append_pipe {p : List Char} (l : List Char) (h : '|' ∉ p) :
    splitPipeCore (p ++ '|' :: l) = (p, splitPipe l) := by
  induction p with
  | nil =>
    show splitPipeCore ('|' :: l) = ([], splitPipe l)
    rw [splitPipeCore_cons, if_pos rfl]
    rfl
  | cons c rest ih =>
    have hc : ¬ c = '|' := fun hc => h (hc ▸ List.mem_cons_self c rest)
    have hrest : '|' ∉ rest := fun hm => h (List.mem_cons_of_mem c hm)
    show splitPipeCore (c :: (rest ++ '|' :: l)) = (c :: rest, splitPipe l)
    rw [splitPipeCore_cons, if_neg hc, ih hrest]

theorem splitPipe_joinSep {ps : List (List Char)} (hne : ps ≠ [])
    (hp : ∀ p ∈ ps, '|' ∉ p) : splitPipe (joinSep '|' ps) = ps := by
  induction ps with
  | nil => exact absurd rfl hne
  | cons p rest ih =>
    cases rest with
    | nil =>
      show splitPipe (joinSep '|' [p]) = [p]
      unfold splitPipe
      rw [show joinSep '|' [p] = p from rfl,
        splitPipeCore_of_no_pipe (hp p (List.mem_cons_self p []))]
    | cons q rest2 =>
      show splitPipe (p ++ '|' :: joinSep '|' (q :: rest2)) = p :: (q :: rest2)
      unfold splitPipe
      rw [splitPipeCore_append_pipe _ (hp p (List.mem_cons_self p _))]
      show p :: splitPipe (joinSep '|' (q :: rest2)) = p :: q :: rest2
      rw [ih (by simp) (fun r hr => hp r (List.mem_cons_of_mem p hr))]

/-! ## Lemmas about `normalize_segments` -/

/-- The list of surviving segments inside `normalize_segments`. -/
def normalizeParts (raw : List Char) : List (List Char) :=
  ((splitPipe raw).map rustTrim).filter (fun s => !s.isEmpty)

theorem normalize_segments_eq_joinSep (raw : List Char) :
    normalize_segments raw = joinSep '|' (normalizeParts raw) := rfl

theorem mem_normalizeParts {raw : List Char} {q : List Char}
    (hq : q ∈ normalizeParts raw) : q ≠ [] ∧ rustTrim q = q ∧ '|' ∉ q := by
  unfold normalizeParts at hq
  have hmem := List.mem_of_mem_filter hq
  have hne : q ≠ [] := by
    have := List.of_mem_filter hq
    simpa [List.isEmpty_iff] using this
  obtain ⟨s, hs, rfl⟩ := List.mem_map.mp hmem
  refine ⟨hne, rustTrim_idem s, rustTrim_no_pipe ?_⟩
  intro hpipe
  exact (mem_splitPipe hs hpipe).2 rfl

theorem normalize_segments_fixpoint {ps : List (List Char)} (hne : ps ≠ [])
    (hp : ∀ p ∈ ps, p ≠ [] ∧ rustTrim p = p ∧ '|' ∉ p) :
    normalize_segments (joinSep '|' ps) = joinSep '|' ps := by
  unfold normalize_segments
  rw [splitPipe_joinSep hne (fun p h => (hp p h).2.2)]
  rw [List.map_congr_left (fun p h => (hp p h).2.1), List.map_id']
  rw [List.filter_eq_self.mpr (fun p h => by
    simpa [List.isEmpty_iff] using (hp p h).1)]

/-- Claim C6's core: `normalize_segments` is idempotent. -/
theorem normalize_segments_idem (raw : List Char) :
    normalize_segments (normalize_segments raw) = normalize_segments raw := by
  rw [normalize_segments_eq_joinSep raw]
  cases h : normalizeParts raw with
  | nil => rfl
  | cons p ps =>
    rw [← h]
    exact normalize_segments_fixpoint (h ▸ List.cons_ne_nil p ps)
      (fun q hq => mem_normalizeParts hq)

theorem length_joinSep_cons_le (sep : Char) (p : List Char) (ps : List (List Char)) :
    (joinSep sep ps).length ≤ (joinSep sep (p :: ps)).length := by
  cases ps with
  | nil => simp [joinSep]
  | cons q qs =>
    show _ ≤ (p ++ sep :: joinSep sep (q :: qs)).length
    rw [List.length_append, List.length_cons]
    omega

theorem length_le_joinSep_cons (sep : Char) (p : List Char) (ps : List (List Char)) :
    p.length ≤ (joinSep sep (p :: ps)).length := by
  cases ps with
  | nil => exact le_refl _
  | cons q qs =>
    show _ ≤ (p ++ sep :: joinSep sep (q :: qs)).length
    rw [List.length_append]
    omega

theorem length_joinSep_cons_cons (sep : Char) (p q : List Char) (qs : List (List Char)) :
    (joinSep sep (p :: q :: qs)).length = p.length + 1 + (joinSep sep (q :: qs)).length := by
  show (p ++ sep :: joinSep sep (q :: qs)).length = _
  rw [List.length_append, List.length_cons]
  omega

theorem length_joinSep_parts_le (ps : List (List Char)) :
    (joinSep '|' ((ps.map rustTrim).filter (fun s => !s.isEmpty))).length ≤
      (joinSep '|' ps).length := by
  induction ps with
  | nil => simp [joinSep]
  | cons p ps ih =>
    have htrim : (rustTrim p).length ≤ p.length := rustTrim_length_le p
    have hfc : ((p :: ps).map rustTrim).filter (fun s => !s.isEmpty) =
        if (rustTrim p).isEmpty then (ps.map rustTrim).filter (fun s => !s.isEmpty)
        else rustTrim p :: (ps.map rustTrim).filter (fun s => !s.isEmpty) := by
      rw [List.map_cons, List.filter_cons]
      cases h : (rustTrim p).isEmpty <;> simp [h]
    by_cases hp : (rustTrim p).isEmpty
    · rw [hfc, if_pos hp]
      exact le_trans ih (length_joinSep_cons_le '|' p ps)
    · rw [hfc, if_neg hp]
      cases hFc : (ps.map rustTrim).filter (fun s => !s.isEmpty) with
      | nil =>
        show (joinSep '|' [rustTrim p]).length ≤ _
        calc (rustTrim p).length ≤ p.length := htrim
          _ ≤ _ := length_le_joinSep_cons '|' p ps
      | cons f fs =>
        have hpsne : ps ≠ [] := by
          intro h
          rw [h] at hFc
          simp at hFc
        obtain ⟨q, qs, rfl⟩ := List.exists_cons_of_ne_nil hpsne
        rw [hFc] at ih
        rw [length_joinSep_cons_cons, length_joinSep_cons_cons]
        omega

theorem length_normalize_segments_le (raw : List Char) :
    (normalize_segments raw).length ≤ raw.length := by
  calc (normalize_segments raw).length
      ≤ (joinSep '|' (splitPipe raw)).length := length_joinSep_parts_le (splitPipe raw)
    _ = raw.length := by rw [joinSep_splitPipe]

theorem normalize_segments_eq_nil {l : List Char}
    (h : ∀ c ∈ l, c = '|' ∨ isWs c = true) : normalize_segments l = [] := by
  have hparts : normalizeParts l = [] := by
    unfold normalizeParts
    rw [List.filter_eq_nil_iff]
    intro q hq
    obtain ⟨s, hs, rfl⟩ := List.mem_map.mp hq
    have : rustTrim s = [] := rustTrim_eq_nil (fun c hc => by
      have hm := mem_splitPipe hs hc
      rcases h c hm.1 with h1 | h1
      · exact absurd h1 hm.2
      · exact h1)
    simp [this]
  rw [normalize_segments_eq_joinSep, hparts]
  rfl

theorem joinSep_head? {sep : Char} {p : List Char} (ps : List (List Char)) (h : p ≠ []) :
    (joinSep sep (p :: ps)).head? = p.head? := by
  rw [joinSep_cons]
  exact List.head?_append_of_ne_nil _ h

theorem joinSep_getLast? {sep : Char} :
    ∀ (ps : List (List Char)) (q : List Char), (∀ p ∈ ps, p ≠ []) →
      ps.getLast? = some q → (joinSep sep ps).getLast? = q.getLast?
  | [], q, _, hlast => by simp at hlast
  | [p], q, _, hlast => by
    simp at hlast
    subst hlast
    rfl
  | p :: r :: rest, q, hne, hlast => by
    have hlast' : (r :: rest).getLast? = some q := by
      rw [List.getLast?_cons_cons] at hlast
      exact hlast
    have hqmem : q ∈ r :: rest := List.mem_of_mem_getLast? (by simp [hlast'])
    have hqne : q ≠ [] := hne q (List.mem_cons_of_mem p hqmem)
    have ihres := @joinSep_getLast? sep (r :: rest) q
      (fun x hx => hne x (List.mem_cons_of_mem p hx)) hlast'
    have hJne : joinSep sep (r :: rest) ≠ [] := by
      intro hnil
      rw [hnil, List.getLast?_eq_getLast q hqne] at ihres
      simp at ihres
    show (p ++ sep :: joinSep sep (r :: rest)).getLast? = q.getLast?
    rw [List.getLast?_append_of_ne_nil _ (List.cons_ne_nil sep _),
      show sep :: joinSep sep (r :: rest) = [sep] ++ joinSep sep (r :: rest) from rfl,
      List.getLast?_append_of_ne_nil _ hJne]
    exact ihres

/-! ## Lemmas about the direction matcher -/

/-- The spellings the case-insensitive literal `en` (resp. `zh`)
accepts: exactly the ASCII case variants, since no other scalar value
case-folds to `e`, `n`, `z` or `h`. -/
def codeSpells (code : List Char) : LanguageCode → Prop
  | .En => code = ['e', 'n'] ∨ code = ['e', 'N'] ∨ code = ['E', 'n'] ∨ code = ['E', 'N']
  | .Zh => code = ['z', 'h'] ∨ code = ['z', 'H'] ∨ code = ['Z', 'h'] ∨ code = ['Z', 'H']

instance (code : List Char) (L : LanguageCode) : Decidable (codeSpells code L) := by
  cases L <;> exact inferInstanceAs (Decidable (_ ∨ _ ∨ _ ∨ _))

theorem matchCode_spells {code : List Char} {L : LanguageCode}
    (h : codeSpells code L) (r : List Char) : matchCode (code ++ r) = some (L, r) := by
  cases L <;> rcases h with h | h | h | h <;> subst h <;> simp [matchCode]

theorem codeSpells_head_not_ws {code : List Char} {L : LanguageCode}
    (h : codeSpells code L) : ∀ c, code.head? = some c → isWs c = false := by
  cases L <;> rcases h with h | h | h | h <;> subst h <;> intro c hc <;>
    simp at hc <;> subst hc <;> decide

theorem dropWhile_append_of_all {p : Char → Bool} {xs : List Char} (ys : List Char)
    (h : ∀ c ∈ xs, p c = true) : (xs ++ ys).dropWhile p = ys.dropWhile p := by
  induction xs with
  | nil => rfl
  | cons a t ih =>
    rw [List.cons_append,
      List.dropWhile_cons_of_pos (h a (List.mem_cons_self a t))]
    exact ih (fun c hc => h c (List.mem_cons_of_mem a hc))

theorem skipWs_ws_append {ws : List Char} (r : List Char)
    (h : ∀ c ∈ ws, isWs c = true) : skipWs (ws ++ r) = skipWs r :=
  dropWhile_append_of_all r h

theorem skipWs_cons_not_ws {c : Char} (r : List Char) (h : isWs c = false) :
    skipWs (c :: r) = c :: r :=
  List.dropWhile_cons_of_neg (by rw [h]; exact Bool.false_ne_true)

theorem skipWs_eq_self_of_head (l : List Char)
    (h : ∀ c, l.head? = some c → isWs c = false) : skipWs l = l :=
  dropWhile_eq_self_of_head isWs l h

/-- The matcher follows any decomposition of its input into the shape
of the direction pattern, capturing exactly the two codes spelled. -/
theorem directionMatch_of_shape {code1 ws1 arrow ws2 code2 : List Char}
    (tail : List Char) {L1 L2 : LanguageCode}
    (h1 : codeSpells code1 L1) (h2 : codeSpells code2 L2)
    (ha : arrow = ['>'] ∨ arrow = ['-', '>'])
    (hw1 : ∀ c ∈ ws1, isWs c = true) (hw2 : ∀ c ∈ ws2, isWs c = true) :
    directionMatch (code1 ++ ws1 ++ arrow ++ ws2 ++ code2 ++ tail) =
      some (L1, L2, consumeColon (skipWs tail)) := by
  have harrow_head : ∀ c, arrow.head? = some c → isWs c = false := by
    rcases ha with h | h <;> subst h <;> intro c hc <;> simp at hc <;> subst hc <;> decide
  have hmatchArrow : ∀ r : List Char, matchArrow (arrow ++ r) = some r := by
    rcases ha with h | h <;> subst h <;> intro r <;> rfl
  have e1 : matchCode (code1 ++ (ws1 ++ (arrow ++ (ws2 ++ (code2 ++ tail))))) =
      some (L1, ws1 ++ (arrow ++ (ws2 ++ (code2 ++ tail)))) := matchCode_spells h1 _
  have e2 : skipWs (ws1 ++ (arrow ++ (ws2 ++ (code2 ++ tail)))) =
      arrow ++ (ws2 ++ (code2 ++ tail)) := by
    rw [skipWs_ws_append _ hw1]
    exact skipWs_eq_self_of_head _ (fun c hc => harrow_head c (by
      rcases ha with h | h <;> subst h <;> simpa using hc))
  have e3 : matchArrow (arrow ++ (ws2 ++ (code2 ++ tail))) =
      some (ws2 ++ (code2 ++ tail)) := hmatchArrow _
  have e4 : skipWs (ws2 ++ (code2 ++ tail)) = code2 ++ tail := by
    rw [skipWs_ws_append _ hw2]
    exact skipWs_eq_self_of_head _ (fun c hc => by
      cases L2 <;> rcases h2 with h | h | h | h <;> subst h <;> simp at hc <;>
        subst hc <;> decide)
  have e5 : matchCode (code2 ++ tail) = some (L2, tail) := matchCode_spells h2 _
  rw [show code1 ++ ws1 ++ arrow ++ ws2 ++ code2 ++ tail =
    code1 ++ (ws1 ++ (arrow ++ (ws2 ++ (code2 ++ tail)))) from by simp]
  simp only [directionMatch, e1, e2, e3, e4, e5]

/-! ## Lemmas about `truncate`, and the claim's description shape -/

theorem truncate_length_le (s : List Char) (maxLen : Nat) (h : 1 ≤ maxLen) :
    (truncate s maxLen).length ≤ maxLen := by
  unfold truncate
  by_cases hlen : maxLen < (rustTrim (s.map (fun c => if isWs c then ' ' else c))).length
  · rw [if_pos hlen]
    rw [List.length_append, List.length_take]
    simp only [List.length_cons, List.length_nil]
    omega
  · rw [if_neg hlen]
    omega

theorem truncate_no_newline (s : List Char) (maxLen : Nat) :
    ∀ c ∈ truncate s maxLen, ¬ c = '\n' := by
  intro c hc hnl
  subst hnl
  have hmem : '\n' ∈ rustTrim (s.map (fun c => if isWs c then ' ' else c)) ∨
      ('\n' : Char) = '…' := by
    unfold truncate at hc
    by_cases hlen : maxLen < (rustTrim (s.map (fun c => if isWs c then ' ' else c))).length
    · rw [if_pos hlen] at hc
      rcases List.mem_append.mp hc with h1 | h1
      · exact Or.inl (List.mem_of_mem_take h1)
      · simp at h1
    · rw [if_neg hlen] at hc
      exact Or.inl hc
  rcases hmem with h1 | h1
  · have h2 := mem_rustTrim h1
    obtain ⟨a, _, ha⟩ := List.mem_map.mp h2
    by_cases hws : isWs a
    · rw [if_pos hws] at ha
      exact absurd ha.symm (by decide)
    · rw [if_neg hws] at ha
      rw [ha] at hws
      exact hws (by decide)
  · exact absurd h1 (by decide)

/-- The first line of a body (up to the first newline). -/
def firstLine (l : List Char) : List Char := l.takeWhile (fun c => c ≠ '\n')

/-- Whitespace-collapsing, tracking whether the previous character was
whitespace: each maximal run of whitespace becomes one space. -/
def collapseWsAux : Bool → List Char → List Char
  | _, [] => []
  | prevWs, c :: rest =>
    if isWs c then
      if prevWs then collapseWsAux true rest
      else ' ' :: collapseWsAux true rest
    else c :: collapseWsAux false rest

/-- Whitespace-collapsing: each maximal run of whitespace becomes one
space. -/
def collapseWs (l : List Char) : List Char := collapseWsAux false l

/-- What the claim says the short description is.  Modelled from the
spec's words: the first line of the candidate's body, whitespace-collapsed
to a single line, truncated to 80 characters with an ellipsis marker
appended when the collapsed text is longer than 80 characters. -/
def claimedShortDescription (body : List Char) : List Char :=
  let line := collapseWs (firstLine body)
  if 80 < line.length then line.take 80 ++ ['…'] else line

/-! ## Unfolding lemmas for `parse_inline_query` -/

theorem parse_inline_query_eq_of_triple (detect : Detector) (raw : List Char)
    (ds dt : LanguageCode) (s t : LanguageCode) (tp : List Char)
    (h : candidateTriple detect raw ds dt = some (s, t, tp)) :
    parse_inline_query detect raw ds dt =
      (if (normalize_segments (tp.take MAX_TEXT_LENGTH)).isEmpty then none
       else some ⟨normalize_segments (tp.take MAX_TEXT_LENGTH), s, t⟩) := by
  unfold parse_inline_query
  rw [h]

theorem candidateTriple_of_direction (detect : Detector) (raw : List Char)
    (ds dt : LanguageCode) {L1 L2 : LanguageCode} {rest : List Char}
    (hne : rustTrim raw ≠ [])
    (hdm : directionMatch (rustTrim raw) = some (L1, L2, rest)) :
    candidateTriple detect raw ds dt = some (L1, L2, rustTrim rest) := by
  unfold candidateTriple
  rw [if_neg (by simpa [List.isEmpty_iff] using hne), hdm]

theorem candidateTriple_of_auto (detect : Detector) (raw : List Char)
    (ds dt : LanguageCode) (hne : rustTrim raw ≠ [])
    (hdm : directionMatch (rustTrim raw) = none) :
    candidateTriple detect raw ds dt =
      some ((auto_detect_direction detect (rustTrim raw) ds dt).1,
        (auto_detect_direction detect (rustTrim raw) ds dt).2, rustTrim raw) := by
  unfold candidateTriple
  rw [if_neg (by simpa [List.isEmpty_iff] using hne), hdm]

/-! ## The claims -/

/-- C2: for every raw input whose trimmed form begins with a direction
pattern of the case-insensitive shape `{en|zh} (> | ->) {en|zh}`,
optionally followed by a colon, with optional surrounding whitespace,
the interpreter uses exactly the two captured codes as source and
target language, and the resulting text comes only from the remainder
after the matched pattern (trimmed) — so it never contains the matched
pattern. -/
theorem c2_direction_extraction (detect : Detector)
    (default_source default_target : LanguageCode) (raw_query : List Char)
    {code1 ws1 arrow ws2 code2 : List Char} (tail : List Char) {L1 L2 : LanguageCode}
    (hdecomp : rustTrim raw_query = code1 ++ ws1 ++ arrow ++ ws2 ++ code2 ++ tail)
    (h1 : codeSpells code1 L1) (h2 : codeSpells code2 L2)
    (ha : arrow = ['>'] ∨ arrow = ['-', '>'])
    (hw1 : ∀ c ∈ ws1, isWs c = true) (hw2 : ∀ c ∈ ws2, isWs c = true) :
    ∃ rest, directionMatch (rustTrim raw_query) = some (L1, L2, rest) ∧
      parse_inline_query detect raw_query default_source default_target =
        (if (normalize_segments ((rustTrim rest).take MAX_TEXT_LENGTH)).isEmpty then none
         else some ⟨normalize_segments ((rustTrim rest).take MAX_TEXT_LENGTH), L1, L2⟩) := by
  have hne : rustTrim raw_query ≠ [] := by
    rw [hdecomp]
    cases L1 <;> rcases h1 with h | h | h | h <;> subst h <;> simp
  have hdm : directionMatch (rustTrim raw_query) =
      some (L1, L2, consumeColon (skipWs tail)) := by
    rw [hdecomp]
    exact directionMatch_of_shape tail h1 h2 ha hw1 hw2
  exact ⟨consumeColon (skipWs tail), hdm,
    parse_inline_query_eq_of_triple detect raw_query default_source default_target L1 L2 _
      (candidateTriple_of_direction detect raw_query default_source default_target hne hdm)⟩

/-- C2 witness: `" EN -> zh:  hello "` parses with exactly the captured
codes `En`, `Zh` and text `"hello"`. -/
theorem c2_direction_extraction_witness :
    ∃ rest, directionMatch (rustTrim " EN -> zh:  hello ".toList) =
        some (LanguageCode.En, LanguageCode.Zh, rest) ∧
      parse_inline_query (fun _ => none) " EN -> zh:  hello ".toList
          LanguageCode.Zh LanguageCode.En =
        (if (normalize_segments ((rustTrim rest).take MAX_TEXT_LENGTH)).isEmpty then none
         else some ⟨normalize_segments ((rustTrim rest).take MAX_TEXT_LENGTH),
           LanguageCode.En, LanguageCode.Zh⟩) :=
  @c2_direction_extraction (fun _ => none) LanguageCode.Zh LanguageCode.En
    " EN -> zh:  hello ".toList ['E', 'N'] [' '] ['-', '>'] [' '] ['z', 'h']
    (":  hello".toList) LanguageCode.En LanguageCode.Zh
    (by decide) (by decide) (by decide) (Or.inr rfl) (by decide) (by decide)

/-- C3: for every trimmed non-empty input on which the direction
pattern does not match, if the trimmed text contains any character of
the CJK ranges U+3000–U+303F, U+3040–U+30FF, U+3400–U+4DBF,
U+4E00–U+9FFF or U+F900–U+FAFF, the interpreter chooses source `Zh`
and target `En` no matter what the statistical detector would say. -/
theorem c3_cjk_detection (detect : Detector)
    (default_source default_target : LanguageCode) (raw_query : List Char)
    (hdm : directionMatch (rustTrim raw_query) = none)
    (hcjk : containsCJK (rustTrim raw_query) = true) :
    parse_inline_query detect raw_query default_source default_target =
      (if (normalize_segments ((rustTrim raw_query).take MAX_TEXT_LENGTH)).isEmpty then none
       else some ⟨normalize_segments ((rustTrim raw_query).take MAX_TEXT_LENGTH),
         LanguageCode.Zh, LanguageCode.En⟩) := by
  have hne : rustTrim raw_query ≠ [] := by
    intro hnil
    rw [hnil] at hcjk
    simp [containsCJK] at hcjk
  have hauto : auto_detect_direction detect (rustTrim raw_query)
      default_source default_target = (LanguageCode.Zh, LanguageCode.En) := by
    unfold auto_detect_direction
    rw [if_pos hcjk]
  have htriple := candidateTriple_of_auto detect raw_query
    default_source default_target hne hdm
  rw [hauto] at htriple
  exact parse_inline_query_eq_of_triple detect raw_query default_source default_target
    _ _ _ htriple

/-- C3 witness: `"开会推迟到几点?"` yields source `Zh`, target `En`. -/
theorem c3_cjk_detection_witness :
    parse_inline_query (fun _ => some DetectedLang.Eng) "开会推迟到几点?".toList
        LanguageCode.En LanguageCode.Zh =
      some ⟨"开会推迟到几点?".toList, LanguageCode.Zh, LanguageCode.En⟩ := by
  rw [c3_cjk_detection (fun _ => some DetectedLang.Eng) LanguageCode.En LanguageCode.Zh
    "开会推迟到几点?".toList (by decide) (by decide)]
  decide

/-- C5: whatever `(source, target, text_portion)` triple the
interpreter selects, the text is truncated to at most 2048 characters
(Unicode scalar values) before `normalize_segments` is applied, and a
text longer than 2048 characters is cut to exactly 2048. -/
theorem c5_truncation (detect : Detector) (raw_query : List Char)
    (default_source default_target s t : LanguageCode) (text_portion : List Char)
    (h : candidateTriple detect raw_query default_source default_target =
      some (s, t, text_portion)) :
    parse_inline_query detect raw_query default_source default_target =
      (if (normalize_segments (text_portion.take MAX_TEXT_LENGTH)).isEmpty then none
       else some ⟨normalize_segments (text_portion.take MAX_TEXT_LENGTH), s, t⟩) ∧
    (text_portion.take MAX_TEXT_LENGTH).length = min MAX_TEXT_LENGTH text_portion.length ∧
    (MAX_TEXT_LENGTH < text_portion.length →
      (text_portion.take MAX_TEXT_LENGTH).length = MAX_TEXT_LENGTH) := by
  refine ⟨parse_inline_query_eq_of_triple detect raw_query default_source default_target
    s t text_portion h, List.length_take _ _, fun hlong => ?_⟩
  rw [List.length_take _ _]
  omega

/-- C5 witness: the triple for `"hello"`, and the truncation facts at
that concrete text. -/
theorem c5_truncation_witness :
    parse_inline_query (fun _ => none) "hello".toList LanguageCode.En LanguageCode.Zh =
      (if (normalize_segments ("hello".toList.take MAX_TEXT_LENGTH)).isEmpty then none
       else some ⟨normalize_segments ("hello".toList.take MAX_TEXT_LENGTH),
         LanguageCode.En, LanguageCode.Zh⟩) ∧
    ("hello".toList.take MAX_TEXT_LENGTH).length = min MAX_TEXT_LENGTH "hello".toList.length ∧
    (MAX_TEXT_LENGTH < "hello".toList.length →
      ("hello".toList.take MAX_TEXT_LENGTH).length = MAX_TEXT_LENGTH) :=
  c5_truncation (fun _ => none) "hello".toList LanguageCode.En LanguageCode.Zh
    LanguageCode.En LanguageCode.Zh "hello".toList (by decide)

/-- C6: segment normalization is idempotent — an already-normalized
string (non-empty trimmed pipe-free segments joined by single `|`) is a
fixpoint, and normalizing twice equals normalizing once. -/
theorem c6_normalize_idempotent :
    (∀ ps : List (List Char), ps ≠ [] →
      (∀ p ∈ ps, p ≠ [] ∧ rustTrim p = p ∧ '|' ∉ p) →
      normalize_segments (joinSep '|' ps) = joinSep '|' ps) ∧
    (∀ s : List Char, normalize_segments (normalize_segments s) = normalize_segments s) :=
  ⟨fun _ hne hp => normalize_segments_fixpoint hne hp, normalize_segments_idem⟩

/-- C6 witness: a normalized two-segment string is a fixpoint, and a
concrete double application collapses. -/
theorem c6_normalize_idempotent_witness :
    normalize_segments (joinSep '|' [['a'], ['b']]) = joinSep '|' [['a'], ['b']] ∧
    normalize_segments (normalize_segments " a |  | b ".toList) =
      normalize_segments " a |  | b ".toList :=
  ⟨c6_normalize_idempotent.1 [['a'], ['b']] (by decide) (by decide),
   c6_normalize_idempotent.2 " a |  | b ".toList⟩

/-- C7: the interpreter returns no query exactly when the input trims
to nothing or the selected text normalizes to nothing; in particular,
any input made only of `|` and whitespace yields no query. -/
theorem c7_empty_query (detect : Detector) (raw_query : List Char)
    (default_source default_target : LanguageCode) :
    (parse_inline_query detect raw_query default_source default_target = none ↔
      (rustTrim raw_query = [] ∨
        ∃ s t text_portion,
          candidateTriple detect raw_query default_source default_target =
            some (s, t, text_portion) ∧
          normalize_segments (text_portion.take MAX_TEXT_LENGTH) = [])) ∧
    ((∀ c ∈ raw_query, c = '|' ∨ isWs c = true) →
      parse_inline_query detect raw_query default_source default_target = none) := by
  constructor
  · by_cases hne : rustTrim raw_query = []
    · constructor
      · intro _
        exact Or.inl hne
      · intro _
        unfold parse_inline_query candidateTriple
        rw [if_pos (by simpa [List.isEmpty_iff] using hne)]
    · have htriple : ∃ s t tp,
          candidateTriple detect raw_query default_source default_target =
            some (s, t, tp) := by
        unfold candidateTriple
        rw [if_neg (by simpa [List.isEmpty_iff] using hne)]
        cases directionMatch (rustTrim raw_query) with
        | none => exact ⟨_, _, _, rfl⟩
        | some v => exact ⟨v.1, v.2.1, rustTrim v.2.2, rfl⟩
      obtain ⟨s, t, tp, htp⟩ := htriple
      rw [parse_inline_query_eq_of_triple detect raw_query default_source default_target
        s t tp htp]
      constructor
      · intro hnone
        by_cases hn : (normalize_segments (tp.take MAX_TEXT_LENGTH)).isEmpty
        · exact Or.inr ⟨s, t, tp, htp, List.isEmpty_iff.mp hn⟩
        · rw [if_neg hn] at hnone
          exact absurd hnone (by simp)
      · intro hcases
        rcases hcases with h1 | ⟨s', t', tp', htp', hnil⟩
        · exact absurd h1 hne
        · rw [htp] at htp'
          have : tp' = tp := by
            injection htp' with h
            exact (congrArg (fun x => x.2.2) h).symm
          rw [this] at hnil
          rw [if_pos (List.isEmpty_iff.mpr hnil)]
  · intro hchars
    by_cases hne : rustTrim raw_query = []
    · unfold parse_inline_query candidateTriple
      rw [if_pos (by simpa [List.isEmpty_iff] using hne)]
    · have htrimmed_chars : ∀ c ∈ rustTrim raw_query, c = '|' ∨ isWs c = true :=
        fun c hc => hchars c (mem_rustTrim hc)
      have hdm : directionMatch (rustTrim raw_query) = none := by
        obtain ⟨c0, rest, hcons⟩ := List.exists_cons_of_ne_nil hne
        have hc0 : c0 = '|' := by
          rcases htrimmed_chars c0 (hcons ▸ List.mem_cons_self c0 rest) with h1 | h1
          · exact h1
          · have := @rustTrim_head?_not_ws raw_query c0 (by rw [hcons]; rfl)
            rw [h1] at this
            exact absurd this (by simp)
        have hmc : matchCode (rustTrim raw_query) = none := by
          rw [hcons, hc0]
          cases rest with
          | nil => rfl
          | cons c2 r2 => simp [matchCode]
        unfold directionMatch
        rw [hmc]
      have htriple := candidateTriple_of_auto detect raw_query
        default_source default_target hne hdm
      rw [parse_inline_query_eq_of_triple detect raw_query default_source default_target
        _ _ _ htriple]
      rw [if_pos (List.isEmpty_iff.mpr (normalize_segments_eq_nil
        (fun c hc => htrimmed_chars c (List.mem_of_mem_take hc))))]

/-- C7 witness: `" | | "` yields no query. -/
theorem c7_empty_query_witness :
    parse_inline_query (fun _ => none) " | | ".toList LanguageCode.En LanguageCode.Zh =
      none :=
  (c7_empty_query (fun _ => none) " | | ".toList LanguageCode.En LanguageCode.Zh).2
    (by decide)

/-- C10: every returned query text is non-empty, at most 2048 scalar
values long, splits on `|` into segments that are all non-empty and
trimmed, and neither begins nor ends with `|` or whitespace. -/
theorem c10_text_invariants (detect : Detector) (raw_query : List Char)
    (default_source default_target : LanguageCode) (q : ParsedInlineQuery)
    (h : parse_inline_query detect raw_query default_source default_target = some q) :
    q.text ≠ [] ∧ q.text.length ≤ 2048 ∧
    (∀ s ∈ splitPipe q.text, s ≠ [] ∧ rustTrim s = s ∧ '|' ∉ s) ∧
    (∀ c, q.text.head? = some c → ¬ c = '|' ∧ isWs c = false) ∧
    (∀ c, q.text.getLast? = some c → ¬ c = '|' ∧ isWs c = false) := by
  obtain ⟨s, t, tp, htp⟩ : ∃ s t tp,
      candidateTriple detect raw_query default_source default_target =
        some (s, t, tp) ∧
      q = ⟨normalize_segments (tp.take MAX_TEXT_LENGTH), s, t⟩ ∧
      ¬ (normalize_segments (tp.take MAX_TEXT_LENGTH)).isEmpty := by
    cases hc : candidateTriple detect raw_query default_source default_target with
    | none =>
      unfold parse_inline_query at h
      rw [hc] at h
      exact absurd h (by simp)
    | some v =>
      obtain ⟨s0, t0, tp0⟩ := v
      rw [parse_inline_query_eq_of_triple detect raw_query default_source default_target
        s0 t0 tp0 hc] at h
      by_cases hn : (normalize_segments (tp0.take MAX_TEXT_LENGTH)).isEmpty
      · rw [if_pos hn] at h
        exact absurd h (by simp)
      · rw [if_neg hn] at h
        exact ⟨s0, t0, tp0, rfl, by injection h with h2; exact h2.symm, hn⟩
  obtain ⟨htriple, hq, hnonempty⟩ := htp
  have htext : q.text = normalize_segments (tp.take MAX_TEXT_LENGTH) := by rw [hq]
  have hne : q.text ≠ [] := by
    rw [htext]
    intro hnil
    exact hnonempty (List.isEmpty_iff.mpr hnil)
  have hparts_ne : normalizeParts (tp.take MAX_TEXT_LENGTH) ≠ [] := by
    intro hnil
    apply hne
    rw [htext, normalize_segments_eq_joinSep, hnil]
    rfl
  have hsplit : splitPipe q.text = normalizeParts (tp.take MAX_TEXT_LENGTH) := by
    rw [htext, normalize_segments_eq_joinSep]
    exact splitPipe_joinSep hparts_ne (fun p hp => (mem_normalizeParts hp).2.2)
  refine ⟨hne, ?_, ?_, ?_, ?_⟩
  · rw [htext]
    calc (normalize_segments (tp.take MAX_TEXT_LENGTH)).length
        ≤ (tp.take MAX_TEXT_LENGTH).length := length_normalize_segments_le _
      _ ≤ MAX_TEXT_LENGTH := List.length_take_le _ _
  · intro seg hseg
    rw [hsplit] at hseg
    exact mem_normalizeParts hseg
  · intro c hc
    obtain ⟨p0, ps0, hps⟩ := List.exists_cons_of_ne_nil hparts_ne
    have hp0 := mem_normalizeParts (hps ▸ List.mem_cons_self p0 ps0)
    rw [htext, normalize_segments_eq_joinSep, hps] at hc
    rw [joinSep_head? ps0 hp0.1] at hc
    have hcp0 : c ∈ p0 := List.mem_of_mem_head? (by simp [hc])
    refine ⟨fun hpipe => hp0.2.2 (hpipe ▸ hcp0), ?_⟩
    exact @rustTrim_head?_not_ws p0 c (by rw [hp0.2.1]; exact hc)
  · intro c hc
    have hlast_mem : ∃ plast, (normalizeParts (tp.take MAX_TEXT_LENGTH)).getLast? =
        some plast ∧ plast ∈ normalizeParts (tp.take MAX_TEXT_LENGTH) := by
      refine ⟨(normalizeParts (tp.take MAX_TEXT_LENGTH)).getLast hparts_ne,
        List.getLast?_eq_getLast _ hparts_ne, List.getLast_mem hparts_ne⟩
    obtain ⟨plast, hplast, hplast_mem⟩ := hlast_mem
    have hpl := mem_normalizeParts hplast_mem
    rw [htext, normalize_segments_eq_joinSep] at hc
    rw [joinSep_getLast? _ plast (fun p hp => (mem_normalizeParts hp).1) hplast] at hc
    have hcpl : c ∈ plast := List.mem_of_mem_getLast? (by simp [hc])
    refine ⟨fun hpipe => hpl.2.2 (hpipe ▸ hcpl), ?_⟩
    exact @rustTrim_getLast?_not_ws plast c (by rw [hpl.2.1]; exact hc)

/-- C10 witness: the invariants at the query parsed from
`" en>zh:  a | | b "`. -/
theorem c10_text_invariants_witness :
    (⟨"a|b".toList, LanguageCode.En, LanguageCode.Zh⟩ : ParsedInlineQuery).text ≠ [] ∧
    (⟨"a|b".toList, LanguageCode.En, LanguageCode.Zh⟩ : ParsedInlineQuery).text.length ≤ 2048 ∧
    (∀ s ∈ splitPipe (⟨"a|b".toList, LanguageCode.En, LanguageCode.Zh⟩ :
        ParsedInlineQuery).text, s ≠ [] ∧ rustTrim s = s ∧ '|' ∉ s) ∧
    (∀ c, (⟨"a|b".toList, LanguageCode.En, LanguageCode.Zh⟩ :
        ParsedInlineQuery).text.head? = some c → ¬ c = '|' ∧ isWs c = false) ∧
    (∀ c, (⟨"a|b".toList, LanguageCode.En, LanguageCode.Zh⟩ :
        ParsedInlineQuery).text.getLast? = some c → ¬ c = '|' ∧ isWs c = false) :=
  c10_text_invariants (fun _ => none) " en>zh:  a | | b ".toList
    LanguageCode.Zh LanguageCode.En ⟨"a|b".toList, LanguageCode.En, LanguageCode.Zh⟩
    (by decide)

/-- C1: the lenient content decode is claimed to return a result for
every content string, but the slice from the first `{` to the last `}`
is taken blindly: when the first `{` lies more than one position after
the last `}` the inclusive slice panics.  At `"}a{"` (first `{` at
index 2, last `}` at index 0) the embedded code evaluates to the panic
(`none`) for every payload parser, instead of falling back to the
trimmed content. -/
theorem c1_content_decode_panics :
    ∀ parse : PayloadJsonParse, parse_json_content parse "\x7da\x7b".toList = none :=
  fun _ => rfl

/-- C4 counterexample: for the configured base URL path `"/v1"` the
code resolves the endpoint to `"/chat/completions"` (RFC 3986 join
drops the final path segment), not to the claimed
`"/v1/chat/completions"` obtained by appending. -/
theorem c4_endpoint_counterexample :
    endpointPath "/v1".toList = "/chat/completions".toList ∧
    claimedEndpointPath "/v1".toList = "/v1/chat/completions".toList ∧
    endpointPath "/v1".toList ≠ claimedEndpointPath "/v1".toList := by
  refine ⟨by decide, by decide, by decide⟩

/-- C4 (amended): the endpoint equals the configured URL when its path
already ends with `/chat/completions`; otherwise `chat/completions`
replaces everything after the last `/` of the path, so the endpoint
always ends with `/chat/completions`, and the reference is appended
verbatim exactly when the path ends with `/`. -/
theorem c4_endpoint_amended (p : List Char) (h : p.head? = some '/') :
    ("/chat/completions".toList.isSuffixOf p = true → endpointPath p = p) ∧
    "/chat/completions".toList.isSuffixOf (endpointPath p) = true ∧
    (p.getLast? = some '/' → endpointPath p = p ++ "chat/completions".toList) := by
  refine ⟨?_, ?_, ?_⟩
  · intro hs
    unfold endpointPath
    rw [if_pos hs]
  · by_cases hs : "/chat/completions".toList.isSuffixOf p
    · unfold endpointPath
      rw [if_pos hs]
      exact hs
    · unfold endpointPath
      rw [if_neg hs]
      have hmem : '/' ∈ p.reverse :=
        List.mem_reverse.mpr (List.mem_of_mem_head? (by simp [h]))
      have hdne : p.reverse.dropWhile (fun c => c ≠ '/') ≠ [] := by
        intro hnil
        rw [List.dropWhile_eq_nil_iff] at hnil
        have := hnil '/' hmem
        simp at this
      obtain ⟨d0, dt, hd⟩ := List.exists_cons_of_ne_nil hdne
      have hd0 : d0 = '/' := by
        have := head?_dropWhile_not (fun c => c ≠ '/') p.reverse d0 (by rw [hd]; rfl)
        simpa using this
      rw [hd, hd0, List.reverse_cons, List.isSuffixOf_iff_suffix, List.append_assoc]
      exact ⟨dt.reverse, by
        rw [show ("/chat/completions".toList : List Char) =
          ['/'] ++ "chat/completions".toList from by decide]⟩
  · intro hl
    by_cases hs : "/chat/completions".toList.isSuffixOf p
    · exfalso
      rw [List.isSuffixOf_iff_suffix] at hs
      have := suffix_getLast? hs (by decide)
      rw [hl] at this
      exact absurd this (by decide)
    · unfold endpointPath
      rw [if_neg hs]
      have hr : p.reverse.head? = some '/' := by
        rw [List.head?_reverse]
        exact hl
      obtain ⟨r0, rt, hrc⟩ : ∃ a t, p.reverse = a :: t := by
        cases hp : p.reverse with
        | nil => rw [hp] at hr; exact absurd hr (by simp)
        | cons a t => exact ⟨a, t, rfl⟩
      have hr0 : r0 = '/' := by
        rw [hrc] at hr
        simpa using hr
      rw [hrc, List.dropWhile_cons_of_neg (by rw [hr0]; simp), ← hrc,
        List.reverse_reverse]

/-- C4 amended witness: at base path `"/v1/"` the suffix case is
vacuous and the endpoint is the verbatim append. -/
theorem c4_endpoint_amended_witness :
    ("/chat/completions".toList.isSuffixOf "/v1/".toList = true →
      endpointPath "/v1/".toList = "/v1/".toList) ∧
    "/chat/completions".toList.isSuffixOf (endpointPath "/v1/".toList) = true ∧
    (("/v1/".toList : List Char).getLast? = some '/' →
      endpointPath "/v1/".toList = "/v1/".toList ++ "chat/completions".toList) :=
  c4_endpoint_amended "/v1/".toList (by decide)

/-- C8: every successful `translate` result carries an empty
`alternate_texts`, whatever the provider payload decoded to. -/
theorem c8_alternates_empty (parse : PayloadJsonParse) (request : TranslationRequest)
    (response : HttpExchange) (latency_ms : Nat) (r : TranslationResult)
    (h : translate parse request response latency_ms = some (.ok r)) :
    r.alternate_texts = [] := by
  unfold translate at h
  split at h
  · exact absurd h (by simp)
  · split at h
    · exact absurd h (by simp)
    · split at h
      · exact absurd h (by simp)
      · split at h
        · exact absurd h (by simp)
        · simp only [Option.some.injEq, Except.ok.injEq] at h
          rw [← h]

/-- C8 witness: a successful exchange whose payload decodes with a
non-empty alternatives list still yields an empty `alternate_texts`. -/
theorem c8_alternates_empty_witness :
    TranslationResult.alternate_texts ⟨"你好".toList, [], none, 5⟩ = [] :=
  c8_alternates_empty
    (fun _ => some ⟨"你好".toList, some ["ni hao".toList], none⟩)
    ⟨"hello".toList, .En, .Zh⟩
    ⟨200, [], some (Json.obj [("choices".toList, Json.arr [Json.obj
      [("message".toList, Json.obj [("content".toList,
        Json.str "raw provider text".toList)])]])])⟩
    5 ⟨"你好".toList, [], none, 5⟩ rfl

/-- C9 counterexample: for the primary candidate built from the
translation `"a|b"` (body `"a\nb"`), the attached description is the
whole body flattened (`"a b"`), not the first line of the body
(`"a"`) as the claim states. -/
theorem c9_description_counterexample :
    ¬ (∀ a ∈ build_translation_articles ⟨"hi".toList, .En, .Zh⟩
        ⟨"a|b".toList, [], none, 0⟩,
      a.description = claimedShortDescription a.body) := by
  decide

set_option maxHeartbeats 2000000 in
/-- C9 (amended): each candidate's description is `truncate` (the whole
source text with every whitespace character replaced by a space,
trimmed, and cut to 79 characters plus an ellipsis when longer than 80)
applied to the candidate's own source text: the candidate is either the
primary entry (whose description is `truncate` of its body, the display
form of the primary text), the romanized entry (present only when a
romanization was decoded; description is `truncate` of its body), or
the alternatives entry (present only when alternates exist; its
description is `truncate` of the display form of the *first* alternate
text, not of its bulleted body); every description is hence at most 80
characters and contains no newline. -/
theorem c9_description_amended (parsed : ParsedInlineQuery)
    (translation : TranslationResult) (a : ArticleModel)
    (h : a ∈ build_translation_articles parsed translation) :
    a.description.length ≤ 80 ∧ (∀ c ∈ a.description, ¬ c = '\n') ∧
    ((a.title = articleHeader parsed ++ " · Primary".toList ∧
      a.body = format_segments_for_display translation.primary_text ∧
      a.description = truncate a.body 80) ∨
     (∃ rom, translation.romanized_text = some rom ∧
      a.title = articleHeader parsed ++ " · Romanized".toList ∧
      a.body = format_segments_for_display rom ∧
      a.description = truncate a.body 80) ∨
     (translation.alternate_texts ≠ [] ∧
      a.title = articleHeader parsed ++ " · Alternatives".toList ∧
      a.description = truncate (format_segments_for_display
        (translation.alternate_texts.headD [])) 80)) := by
  have base : ∀ src : List Char,
      (truncate src 80).length ≤ 80 ∧ (∀ c ∈ truncate src 80, ¬ c = '\n') :=
    fun src => ⟨truncate_length_le src 80 (by omega), truncate_no_newline src 80⟩
  obtain ⟨pt, alts, rom, lat⟩ := translation
  cases rom with
  | none =>
    cases alts with
    | nil =>
      simp [build_translation_articles] at h
      subst h
      exact ⟨(base _).1, (base _).2, Or.inl ⟨rfl, rfl, rfl⟩⟩
    | cons alt0 altRest =>
      simp [build_translation_articles] at h
      rcases h with rfl | rfl
      · exact ⟨(base _).1, (base _).2, Or.inl ⟨rfl, rfl, rfl⟩⟩
      · refine ⟨(base _).1, (base _).2,
          Or.inr (Or.inr ⟨List.cons_ne_nil alt0 altRest, rfl, ?_⟩)⟩
        simp
  | some romText =>
    cases alts with
    | nil =>
      simp [build_translation_articles] at h
      rcases h with rfl | rfl
      · exact ⟨(base _).1, (base _).2, Or.inl ⟨rfl, rfl, rfl⟩⟩
      · exact ⟨(base _).1, (base _).2, Or.inr (Or.inl ⟨romText, rfl, rfl, rfl, rfl⟩)⟩
    | cons alt0 altRest =>
      simp [build_translation_articles] at h
      rcases h with rfl | rfl | rfl
      · exact ⟨(base _).1, (base _).2, Or.inl ⟨rfl, rfl, rfl⟩⟩
      · exact ⟨(base _).1, (base _).2, Or.inr (Or.inl ⟨romText, rfl, rfl, rfl, rfl⟩)⟩
      · refine ⟨(base _).1, (base _).2,
          Or.inr (Or.inr ⟨List.cons_ne_nil alt0 altRest, rfl, ?_⟩)⟩
        simp

/-- C9 amended witness: the primary candidate for a one-word
translation, identified as the primary entry with its body-derived
description. -/
theorem c9_description_amended_witness :
    (⟨"🌐 EN → ZH · Primary".toList, "ok".toList, "ok".toList⟩ :
        ArticleModel).description.length ≤ 80 ∧
    (∀ c ∈ (⟨"🌐 EN → ZH · Primary".toList, "ok".toList, "ok".toList⟩ :
        ArticleModel).description, ¬ c = '\n') ∧
    (((⟨"🌐 EN → ZH · Primary".toList, "ok".toList, "ok".toList⟩ :
          ArticleModel).title =
        articleHeader ⟨"hi".toList, .En, .Zh⟩ ++ " · Primary".toList ∧
      (⟨"🌐 EN → ZH · Primary".toList, "ok".toList, "ok".toList⟩ :
          ArticleModel).body =
        format_segments_for_display
          (⟨"ok".toList, [], none, 0⟩ : TranslationResult).primary_text ∧
      (⟨"🌐 EN → ZH · Primary".toList, "ok".toList, "ok".toList⟩ :
          ArticleModel).description =
        truncate (⟨"🌐 EN → ZH · Primary".toList, "ok".toList, "ok".toList⟩ :
          ArticleModel).body 80) ∨
     (∃ rom, (⟨"ok".toList, [], none, 0⟩ : TranslationResult).romanized_text =
        some rom ∧
      (⟨"🌐 EN → ZH · Primary".toList, "ok".toList, "ok".toList⟩ :
          ArticleModel).title =
        articleHeader ⟨"hi".toList, .En, .Zh⟩ ++ " · Romanized".toList ∧
      (⟨"🌐 EN → ZH · Primary".toList, "ok".toList, "ok".toList⟩ :
          ArticleModel).body = format_segments_for_display rom ∧
      (⟨"🌐 EN → ZH · Primary".toList, "ok".toList, "ok".toList⟩ :
          ArticleModel).description =
        truncate (⟨"🌐 EN → ZH · Primary".toList, "ok".toList, "ok".toList⟩ :
          ArticleModel).body 80) ∨
     ((⟨"ok".toList, [], none, 0⟩ : TranslationResult).alternate_texts ≠ [] ∧
      (⟨"🌐 EN → ZH · Primary".toList, "ok".toList, "ok".toList⟩ :
          ArticleModel).title =
        articleHeader ⟨"hi".toList, .En, .Zh⟩ ++ " · Alternatives".toList ∧
      (⟨"🌐 EN → ZH · Primary".toList, "ok".toList, "ok".toList⟩ :
          ArticleModel).description =
        truncate (format_segments_for_display
          ((⟨"ok".toList, [], none, 0⟩ :
            TranslationResult).alternate_texts.headD [])) 80)) :=
  c9_description_amended ⟨"hi".toList, .En, .Zh⟩ ⟨"ok".toList, [], none, 0⟩
    ⟨"🌐 EN → ZH · Primary".toList, "ok".toList, "ok".toList⟩ (by decide)

end TransLT
